import Mathlib

/-!
Verification development for the ingestion and deduplication engine of
`app.py` (class `DataProcessorApp`).

The source components are embedded shallowly:

* `detect_data_category`  — category detection by required-column matching
  (app.py, lines 95–109);
* `assign_unique_identifiers` — stable identifier assignment with minting
  `ID_{next:03d}` (app.py, lines 169–192);
* `prevent_duplicate_entries` — in-batch duplicate suppression keyed on the
  per-category dedup fields (app.py, lines 194–216);
* the time-standardization loop and the merge loop of `process_data`
  (app.py, lines 130–137 and 143–147).

Python records (dicts) are insertion-ordered association lists from column
name to `Value`; a cell holds a string, Python `None`, or a non-string
scalar such as pandas `NaN`.  Fallible Python code (KeyError, ValueError,
TypeError, plus run-level failures) is embedded with `Except PyErr`.
-/

/-- A cell value of a record: a string, Python `None`, or a non-string
scalar (e.g. a float `NaN` produced by pandas for a missing cell). -/
inductive Value where
  | str (s : String)
  | none
  | nan
deriving DecidableEq, Repr

/-- The exceptions the embedded code can raise.  `keyError f` models a
Python `KeyError` on the missing key `f`; `unrecognizedCategory` models
the pipeline failure when no category matches; `persistenceError` models
a failed save. -/
inductive PyErr where
  | keyError (field : String)
  | valueError
  | typeError
  | unrecognizedCategory
  | persistenceError
deriving DecidableEq, Repr

instance {ε α : Type} [DecidableEq ε] [DecidableEq α] : DecidableEq (Except ε α) :=
  fun a b =>
    match a, b with
    | Except.error e, Except.error e' =>
      if h : e = e' then isTrue (by rw [h]) else isFalse (fun hh => by cases hh; exact h rfl)
    | Except.ok x, Except.ok y =>
      if h : x = y then isTrue (by rw [h]) else isFalse (fun hh => by cases hh; exact h rfl)
    | Except.error _, Except.ok _ => isFalse (fun hh => by cases hh)
    | Except.ok _, Except.error _ => isFalse (fun hh => by cases hh)

/-- A record: a Python dict row, i.e. an insertion-ordered association list
from column name to value. -/
abbrev Record := List (String × Value)

/-- `r[f]` read access on a dict row, as an option (first matching key). -/
def getField : Record → String → Option Value
  | [], _ => Option.none
  | p :: r, f => if p.1 = f then some p.2 else getField r f

/-- `r[f] = v` on a dict row: replaces the value in place if the key
exists, otherwise appends the new key at the end (dict insertion order). -/
def setField : Record → String → Value → Record
  | [], f, v => [(f, v)]
  | p :: r, f, v => if p.1 = f then (f, v) :: r else p :: setField r f v

/-- The identifier table (`existing_identifiers`): a dict from identity
value to identifier string. -/
abbrev IdTable := List (Value × String)

/-- Dict lookup on the identifier table. -/
def lookupT : IdTable → Value → Option String
  | [], _ => Option.none
  | p :: t, k => if p.1 = k then some p.2 else lookupT t k

/- ---------------------------------------------------------------------
Decimal formatting and parsing of identifier suffixes.
`f"ID_{n:03d}"` and `int(id.split("_")[1])` (app.py lines 176 and 188).
--------------------------------------------------------------------- -/

/-- Decimal digits of `n`, most significant first, by fuelled division;
`decCharsCore fuel n` is correct whenever `n < fuel`. -/
def decCharsCore : Nat → Nat → List Char
  | 0, _ => []
  | fuel + 1, n =>
    if n < 10 then [Nat.digitChar n]
    else decCharsCore fuel (n / 10) ++ [Nat.digitChar (n % 10)]

/-- Decimal representation of `n` (the digits of `str(n)`). -/
def decChars (n : Nat) : List Char := decCharsCore (n + 1) n

/-- Zero-padding to width 3: the `03d` format specifier. -/
def padChars (l : List Char) : List Char := List.replicate (3 - l.length) '0' ++ l

/-- `f"ID_{n:03d}"` (app.py line 188). -/
def formatId (n : Nat) : String := String.mk ('I' :: 'D' :: '_' :: padChars (decChars n))

/-- Value of a digit string read left to right (how `int` evaluates a
numeral). -/
def charsVal (cs : List Char) : Nat := cs.foldl (fun a c => a * 10 + (c.toNat - 48)) 0

/-- `int(s)` on a candidate numeral: defined only on nonempty all-digit
strings. -/
def charsToNat? (cs : List Char) : Option Nat :=
  if !cs.isEmpty && cs.all Char.isDigit then some (charsVal cs) else Option.none

/-- `s.split(sep)` on character lists (every occurrence of the separator
splits; `[] ↦ [""]`, as in Python `str.split` with an explicit
separator). -/
def splitOnChar (sep : Char) : List Char → List (List Char)
  | [] => [[]]
  | c :: cs =>
    if c = sep then [] :: splitOnChar sep cs
    else
      match splitOnChar sep cs with
      | [] => [[c]]
      | p :: ps => (c :: p) :: ps

/-- `int(id.split("_")[1])` (app.py line 176): the numeric suffix of an
identifier string, if it exists. -/
def idNum (s : String) : Option Nat :=
  match (splitOnChar '_' s.data).get? 1 with
  | some cs => charsToNat? cs
  | Option.none => Option.none

/- ---------------------------------------------------------------------
Category Schema Registry (the dict literals of app.py).
--------------------------------------------------------------------- -/

/-- The `categories` dict of `detect_data_category` (app.py lines 96–103),
in insertion order. -/
def categoriesList : List (String × List String) :=
  [("Messenger", ["Time", "Sender", "Text"]),
   ("SMS", ["SMS Type", "Time", "From/To", "Text", "Location"]),
   ("Calls", ["Call Type", "Time", "From/To", "Duration", "Location"]),
   ("Keylog", ["Application", "Time", "Text"]),
   ("Contacts", ["Name", "Phone Number", "Email Id", "Last Contacted"]),
   ("Installed Apps", ["Application Name", "Package Name", "Installed Date"])]

/-- `all(col in columns for col in required_columns)` (app.py line 106). -/
def hasAll (required : List String) (columns : List String) : Bool :=
  required.all (fun c => columns.contains c)

/-- The `for category, required_columns in categories.items()` loop with
early return (app.py lines 105–108). -/
def firstMatch : List (String × List String) → List String → Option String
  | [], _ => Option.none
  | p :: cs, columns => if hasAll p.2 columns then some p.1 else firstMatch cs columns

/-- `detect_data_category` (app.py lines 95–109): the first category, in
dict order, whose entire required-column set is contained in the input
columns; `none` when no category matches. -/
def detect_data_category (columns : List String) : Option String :=
  firstMatch categoriesList columns

/-- The identity field per category (app.py lines 179–184): `Sender` for
Messenger, `From/To` for SMS and Calls, `Name` for Contacts, and no field
(the `continue` branch) otherwise. -/
def senderField : String → Option String
  | "Messenger" => some "Sender"
  | "SMS" => some "From/To"
  | "Calls" => some "From/To"
  | "Contacts" => some "Name"
  | _ => Option.none

/-- The `unique_fields` dict of `prevent_duplicate_entries` (app.py lines
199–206). -/
def dedupFieldsList : List (String × List String) :=
  [("Messenger", ["Time", "Sender", "Text"]),
   ("SMS", ["Time", "From/To", "Text"]),
   ("Calls", ["Time", "From/To", "Duration"]),
   ("Keylog", ["Application", "Time", "Text"]),
   ("Contacts", ["Name", "Phone Number"]),
   ("Installed Apps", ["Application Name", "Package Name"])]

/-- Dict lookup in an association list with string keys. -/
def lookupStr {α : Type} : List (String × α) → String → Option α
  | [], _ => Option.none
  | p :: l, k => if p.1 = k then some p.2 else lookupStr l k

/- ---------------------------------------------------------------------
Identifier Assigner: `assign_unique_identifiers` (app.py lines 169–192).
--------------------------------------------------------------------- -/

/-- The generator `(int(id.split("_")[1]) for id in
existing_identifiers.values())` (app.py line 176): parses every stored
identifier's numeric suffix, raising `ValueError` on a malformed one. -/
def suffixNums : IdTable → Except PyErr (List Nat)
  | [] => Except.ok []
  | p :: t =>
    match idNum p.2 with
    | Option.none => Except.error PyErr.valueError
    | some n =>
      match suffixNums t with
      | Except.error e => Except.error e
      | Except.ok ns => Except.ok (n :: ns)

/-- `next_id = max(...) + 1 if existing_identifiers else 1`
(app.py line 176). -/
def nextIdOf (t : IdTable) : Except PyErr Nat :=
  if t.isEmpty then Except.ok 1
  else
    match suffixNums t with
    | Except.error e => Except.error e
    | Except.ok ns => Except.ok (ns.foldl Nat.max 0 + 1)

/-- The `for entry in processed_data` loop of `assign_unique_identifiers`
(app.py lines 178–190): reads the identity value, attaches the existing
identifier or mints `ID_{next:03d}` for an unseen value; for categories
without an identity field the record is passed through untouched
(`continue`).  A record lacking the identity field raises `KeyError`. -/
def assignLoop (cat : String) : List Record → IdTable → Nat → Except PyErr (List Record × IdTable)
  | [], t, _ => Except.ok ([], t)
  | r :: rs, t, n =>
    match senderField cat with
    | Option.none =>
      match assignLoop cat rs t n with
      | Except.error e => Except.error e
      | Except.ok (rs', t') => Except.ok (r :: rs', t')
    | some f =>
      match getField r f with
      | Option.none => Except.error (PyErr.keyError f)
      | some sender =>
        match lookupT t sender with
        | some ident =>
          match assignLoop cat rs t n with
          | Except.error e => Except.error e
          | Except.ok (rs', t') => Except.ok (setField r "identifier" (Value.str ident) :: rs', t')
        | Option.none =>
          match assignLoop cat rs (t ++ [(sender, formatId n)]) (n + 1) with
          | Except.error e => Except.error e
          | Except.ok (rs', t') =>
            Except.ok (setField r "identifier" (Value.str (formatId n)) :: rs', t')

/-- `assign_unique_identifiers` (app.py lines 169–192). -/
def assign_unique_identifiers (processed_data : List Record) (category : String)
    (existing_identifiers : IdTable) : Except PyErr (List Record × IdTable) :=
  match nextIdOf existing_identifiers with
  | Except.error e => Except.error e
  | Except.ok n => assignLoop category processed_data existing_identifiers n

/- ---------------------------------------------------------------------
Duplicate Filter: `prevent_duplicate_entries` (app.py lines 194–216).
--------------------------------------------------------------------- -/

/-- `tuple(entry[field] for field in unique_fields[category])`
(app.py line 211): raises `KeyError` at the first missing dedup field. -/
def recordKey (fields : List String) (r : Record) : Except PyErr (List Value) :=
  match fields with
  | [] => Except.ok []
  | f :: fs =>
    match getField r f with
    | Option.none => Except.error (PyErr.keyError f)
    | some v =>
      match recordKey fs r with
      | Except.error e => Except.error e
      | Except.ok vs => Except.ok (v :: vs)

/-- The `for entry in processed_data` loop of `prevent_duplicate_entries`
(app.py lines 210–214): keep a record iff its key tuple is not in `seen`,
adding kept keys to `seen`. -/
def preventLoop (fields : List String) (seen : List (List Value)) :
    List Record → Except PyErr (List Record)
  | [] => Except.ok []
  | r :: rs =>
    match recordKey fields r with
    | Except.error e => Except.error e
    | Except.ok key =>
      if key ∈ seen then preventLoop fields seen rs
      else
        match preventLoop fields (key :: seen) rs with
        | Except.error e => Except.error e
        | Except.ok out => Except.ok (r :: out)

/-- `prevent_duplicate_entries` (app.py lines 194–216): the `seen` set
starts empty (`seen = set()`, line 208); no persisted records are
consulted. -/
def prevent_duplicate_entries (processed_data : List Record) (category : String) :
    Except PyErr (List Record) :=
  match lookupStr dedupFieldsList category with
  | Option.none => Except.error (PyErr.keyError category)
  | some fields => preventLoop fields [] processed_data

/- ---------------------------------------------------------------------
Time standardization (app.py lines 130–137) and the external parser.
--------------------------------------------------------------------- -/

/-- The three fields standardized by `process_data` (app.py line 132). -/
def timeFields : List String := ["Time", "Last Contacted", "Installed Date"]

/-- One field of the standardization loop (app.py lines 132–137):
if the field is present, replace it by the parsed canonical string; a
`ValueError` from the parser is caught and the field set to `None`; any
other exception propagates and aborts the run. -/
def stdField (parse : Value → Except PyErr String) (f : String) (r : Record) :
    Except PyErr Record :=
  match getField r f with
  | Option.none => Except.ok r
  | some v =>
    match parse v with
    | Except.ok s => Except.ok (setField r f (Value.str s))
    | Except.error PyErr.valueError => Except.ok (setField r f Value.none)
    | Except.error e => Except.error e

/-- The standardization of one row over the three time fields, in source
order (app.py lines 131–137). -/
def normalizeRow (parse : Value → Except PyErr String) (r : Record) : Except PyErr Record :=
  match stdField parse "Time" r with
  | Except.error e => Except.error e
  | Except.ok r1 =>
    match stdField parse "Last Contacted" r1 with
    | Except.error e => Except.error e
    | Except.ok r2 => stdField parse "Installed Date" r2

/-- The `for row in csv_data` standardization loop (app.py lines 130–137). -/
def normalizeRows (parse : Value → Except PyErr String) : List Record → Except PyErr (List Record)
  | [] => Except.ok []
  | r :: rs =>
    match normalizeRow parse r with
    | Except.error e => Except.error e
    | Except.ok r' =>
      match normalizeRows parse rs with
      | Except.error e => Except.error e
      | Except.ok rs' => Except.ok (r' :: rs')

/-- A crude shape test for an already-canonical `%Y-%m-%dT%H:%M:%S`
string: 19 characters with `T` at index 10. -/
def isoLike (s : String) : Bool := s.data.length == 19 && s.data.get? 10 == some 'T'

/-- Modelled from the spec: the external timestamp-normalization
collaborator (`dateutil.parser.parse` composed with `strftime`, §1/§6 of
the spec) is not part of the repository.  Canonical strings normalize to
themselves, other strings fail with `ValueError`, and a non-string value
(Python `None`, or a float `NaN` from a missing CSV cell) raises
`TypeError`. -/
def dateutilParse : Value → Except PyErr String
  | Value.str s => if isoLike s then Except.ok s else Except.error PyErr.valueError
  | _ => Except.error PyErr.typeError

/- ---------------------------------------------------------------------
Merge Store and the Ingestion Pipeline.
--------------------------------------------------------------------- -/

/-- The persisted store (`data.json`): the per-category record sequences
plus the identifier table (spec §3, §6). -/
structure Store where
  cats : List (String × List Record)
  identifiers : IdTable
deriving DecidableEq, Repr

/-- Category lookup in the persisted per-category map. -/
def lookupCats : List (String × List Record) → String → Option (List Record)
  | [], _ => Option.none
  | p :: cs, c => if p.1 = c then some p.2 else lookupCats cs c

/-- The merge loop body of `process_data` (app.py lines 144–147):
`if category not in existing_data: existing_data[category] = []` followed
by `existing_data[category].extend(entries)`. -/
def mergeCategory : List (String × List Record) → String → List Record →
    List (String × List Record)
  | [], cat, es => [(cat, es)]
  | p :: cs, cat, es => if p.1 = cat then (p.1, p.2 ++ es) :: cs else p :: mergeCategory cs cat es

/-- Modelled from the spec: the §4.6 ingestion pipeline for one input
table.  `detect_and_categorize` and `prevent_duplicates` (utils.py) are
not under src/, so the pipeline composes the source's own components in
the spec's order: `detect_data_category`, the time standardization of
`process_data`, `assign_unique_identifiers`, `prevent_duplicate_entries`,
and the merge loop of `process_data`.  Any exception aborts the run
before anything is merged into the returned store. -/
def processRun (parse : Value → Except PyErr String) (store : Store)
    (columns : List String) (rows : List Record) : Except PyErr Store :=
  match detect_data_category columns with
  | Option.none => Except.error PyErr.unrecognizedCategory
  | some cat =>
    match normalizeRows parse rows with
    | Except.error e => Except.error e
    | Except.ok rowsN =>
      match assign_unique_identifiers rowsN cat store.identifiers with
      | Except.error e => Except.error e
      | Except.ok (rowsA, t') =>
        match prevent_duplicate_entries rowsA cat with
        | Except.error e => Except.error e
        | Except.ok finalRecs => Except.ok ⟨mergeCategory store.cats cat finalRecs, t'⟩

/-- Modelled from the spec: `save_json_data` / `load_json_data` (utils.py)
are not under src/; per spec §4.5 the save is atomic and all-or-nothing.
`saveOk` simulates whether the save succeeds.  The durable store after the
run is returned together with the surfaced error, if any: a failed run —
including a failed save — leaves the durable store exactly as it was. -/
def runAndSave (parse : Value → Except PyErr String) (saveOk : Bool) (disk : Store)
    (columns : List String) (rows : List Record) : Store × Option PyErr :=
  match processRun parse disk columns rows with
  | Except.error e => (disk, some e)
  | Except.ok s => if saveOk then (s, Option.none) else (disk, some PyErr.persistenceError)

/- ---------------------------------------------------------------------
Concrete fixtures used by witnesses and counterexamples.
--------------------------------------------------------------------- -/

/-- A canonical timestamp string. -/
def canonTime : Value := Value.str "2024-01-02T03:04:05"

/-- The Messenger column set. -/
def msgCols : List String := ["Time", "Sender", "Text"]

/-- A Messenger record from Alice. -/
def aliceRow : Record := [("Time", canonTime), ("Sender", Value.str "Alice"), ("Text", Value.str "hi")]

/-- A Messenger record from Bob. -/
def bobRow : Record := [("Time", canonTime), ("Sender", Value.str "Bob"), ("Text", Value.str "hey")]

/-- The empty persisted store. -/
def emptyStore : Store := ⟨[], []⟩

/-- The records of `out` whose dedup-key tuple is `key` (used to state the
first-wins property of the duplicate filter). -/
def keyFilter (fields : List String) (key : List Value) (out : List Record) : List Record :=
  out.filter (fun r => decide (recordKey fields r = Except.ok key))

/-- `aliceRow` with the identifier the engine attaches on first sight. -/
def aliceRowTagged : Record := aliceRow ++ [("identifier", Value.str "ID_001")]

/-- A record distinct from `aliceRow` but with the same Messenger dedup-key
tuple (it differs only in an extra column). -/
def extraRow : Record := aliceRow ++ [("Extra", Value.str "x")]

/-- `extraRow` after identifier attachment. -/
def extraRowTagged : Record := extraRow ++ [("identifier", Value.str "ID_001")]

/-- A two-entry identifier table. -/
def stabTable : IdTable := [(Value.str "Alice", "ID_001"), (Value.str "Bob", "ID_002")]

/-- An identifier table whose highest numeric suffix is 999. -/
def prevTable : IdTable := [(Value.str "Prev", "ID_999")]

/-- A Messenger row whose Time cell is a non-string scalar (pandas NaN). -/
def nanRow : Record := [("Time", Value.nan), ("Sender", Value.str "A"), ("Text", Value.str "hi")]

/-- The store after ingesting `[aliceRow]` once into the empty store. -/
def store1 : Store := ⟨[("Messenger", [aliceRowTagged])], [(Value.str "Alice", "ID_001")]⟩

/-- The store after ingesting `[aliceRow]` twice into the empty store. -/
def store2 : Store := ⟨[("Messenger", [aliceRowTagged, aliceRowTagged])], [(Value.str "Alice", "ID_001")]⟩

/- ---------------------------------------------------------------------
Lemmas: decimal formatting and parsing of identifier suffixes.
--------------------------------------------------------------------- -/

theorem charsVal_append_one (l : List Char) (c : Char) :
    charsVal (l ++ [c]) = charsVal l * 10 + (c.toNat - 48) := by
  unfold charsVal
  rw [List.foldl_append]
  rfl

theorem charsVal_zeros (k : Nat) (l : List Char) :
    charsVal (List.replicate k '0' ++ l) = charsVal l := by
  induction k with
  | zero => rfl
  | succ k ih =>
    show charsVal ('0' :: (List.replicate k '0' ++ l)) = charsVal l
    unfold charsVal at ih ⊢
    simp only [List.foldl_cons]
    have h0 : (0 : Nat) * 10 + ('0'.toNat - 48) = 0 := by decide
    rw [h0]
    exact ih

theorem digitChar_isDigit : ∀ n, n < 10 → (Nat.digitChar n).isDigit = true := by decide

theorem digitChar_val : ∀ n, n < 10 → (Nat.digitChar n).toNat - 48 = n := by decide

theorem decCharsCore_spec : ∀ fuel n, n < fuel →
    decCharsCore fuel n ≠ [] ∧ (∀ c ∈ decCharsCore fuel n, c.isDigit = true) ∧
      charsVal (decCharsCore fuel n) = n := by
  intro fuel
  induction fuel with
  | zero => intro n h; omega
  | succ fuel ih =>
    intro n h
    unfold decCharsCore
    by_cases h10 : n < 10
    · simp only [if_pos h10]
      refine ⟨by simp, ?_, ?_⟩
      · intro c hc
        simp only [List.mem_singleton] at hc
        subst hc
        exact digitChar_isDigit n h10
      · show charsVal ([] ++ [Nat.digitChar n]) = n
        rw [charsVal_append_one]
        have : charsVal [] = 0 := rfl
        rw [this, digitChar_val n h10]
        omega
    · simp only [if_neg h10]
      have hd : n / 10 < fuel := by
        have : n / 10 < n := Nat.div_lt_self (by omega) (by omega)
        omega
      obtain ⟨hne, hdig, hval⟩ := ih (n / 10) hd
      refine ⟨by simp [hne], ?_, ?_⟩
      · intro c hc
        rcases List.mem_append.mp hc with h1 | h1
        · exact hdig c h1
        · simp only [List.mem_singleton] at h1
          subst h1
          exact digitChar_isDigit _ (Nat.mod_lt _ (by omega))
      · rw [charsVal_append_one, hval, digitChar_val _ (Nat.mod_lt _ (by omega))]
        omega

theorem decChars_spec (n : Nat) :
    decChars n ≠ [] ∧ (∀ c ∈ decChars n, c.isDigit = true) ∧ charsVal (decChars n) = n :=
  decCharsCore_spec (n + 1) n (Nat.lt_succ_self n)

theorem padChars_ne_nil (l : List Char) : padChars l ≠ [] := by
  unfold padChars
  intro h
  rcases List.append_eq_nil.mp h with ⟨h1, h2⟩
  have : l.length = 0 := by rw [h2]; rfl
  have : (3 - l.length) = 0 := by
    by_contra hn
    exact absurd h1 (by simp [List.replicate, List.eq_nil_iff_forall_not_mem]; omega)
  omega

theorem padChars_digits (l : List Char) (h : ∀ c ∈ l, c.isDigit = true) :
    ∀ c ∈ padChars l, c.isDigit = true := by
  intro c hc
  rcases List.mem_append.mp hc with h1 | h1
  · have := List.eq_of_mem_replicate h1
    subst this
    decide
  · exact h c h1

theorem padChars_val (l : List Char) : charsVal (padChars l) = charsVal l :=
  charsVal_zeros _ _

theorem splitOnChar_no_sep (sep : Char) (l : List Char) (h : sep ∉ l) :
    splitOnChar sep l = [l] := by
  induction l with
  | nil => rfl
  | cons c cs ih =>
    have hc : ¬(c = sep) := fun hh => h (hh ▸ List.mem_cons_self c cs)
    have hcs : sep ∉ cs := fun hh => h (List.mem_cons_of_mem c hh)
    unfold splitOnChar
    rw [if_neg hc, ih hcs]

theorem charsToNat?_digits (cs : List Char) (h1 : cs ≠ [])
    (h2 : ∀ c ∈ cs, c.isDigit = true) : charsToNat? cs = some (charsVal cs) := by
  unfold charsToNat?
  have he : cs.isEmpty = false := by cases cs with
    | nil => exact absurd rfl h1
    | cons c cs => rfl
  have ha : cs.all Char.isDigit = true := List.all_eq_true.mpr h2
  rw [he, ha]
  rfl

theorem idNum_formatId (n : Nat) : idNum (formatId n) = some n := by
  have hno : '_' ∉ padChars (decChars n) := by
    intro hmem
    have := padChars_digits _ (decChars_spec n).2.1 _ hmem
    exact absurd this (by decide)
  have hsplit : splitOnChar '_' ('I' :: 'D' :: '_' :: padChars (decChars n)) =
      [['I', 'D'], padChars (decChars n)] := by
    have h1 : splitOnChar '_' (padChars (decChars n)) = [padChars (decChars n)] :=
      splitOnChar_no_sep _ _ hno
    unfold splitOnChar
    rw [if_neg (by decide)]
    unfold splitOnChar
    rw [if_neg (by decide)]
    unfold splitOnChar
    rw [if_pos rfl, h1]
  show (match (splitOnChar '_' ('I' :: 'D' :: '_' :: padChars (decChars n))).get? 1 with
    | some cs => charsToNat? cs
    | Option.none => Option.none) = some n
  rw [hsplit]
  show charsToNat? (padChars (decChars n)) = some n
  rw [charsToNat?_digits _ (padChars_ne_nil _) (padChars_digits _ (decChars_spec n).2.1)]
  rw [padChars_val, (decChars_spec n).2.2]

theorem formatId_injective (a b : Nat) (h : formatId a = formatId b) : a = b := by
  have ha := idNum_formatId a
  rw [h, idNum_formatId b] at ha
  exact (Option.some.inj ha).symm

/- ---------------------------------------------------------------------
Lemmas: identifier-table lookup and the `next_id` computation.
--------------------------------------------------------------------- -/

theorem lookupT_append_left (t e : IdTable) (k : Value) (v : String)
    (h : lookupT t k = some v) : lookupT (t ++ e) k = some v := by
  induction t with
  | nil => exact absurd h (by simp [lookupT])
  | cons p t ih =>
    rw [List.cons_append]
    simp only [lookupT] at h ⊢
    by_cases hp : p.1 = k
    · rw [if_pos hp] at h ⊢; exact h
    · rw [if_neg hp] at h ⊢; exact ih h

theorem lookupT_append_right (t e : IdTable) (k : Value)
    (h : lookupT t k = Option.none) : lookupT (t ++ e) k = lookupT e k := by
  induction t with
  | nil => rfl
  | cons p t ih =>
    rw [List.cons_append]
    simp only [lookupT] at h ⊢
    by_cases hp : p.1 = k
    · rw [if_pos hp] at h; cases h
    · rw [if_neg hp] at h ⊢; exact ih h

theorem lookupT_none_iff (t : IdTable) (k : Value) :
    lookupT t k = Option.none ↔ k ∉ t.map Prod.fst := by
  induction t with
  | nil => simp [lookupT]
  | cons p t ih =>
    unfold lookupT
    by_cases hp : p.1 = k
    · rw [if_pos hp]
      simp [hp]
    · rw [if_neg hp]
      simp only [List.map_cons, List.mem_cons, ih]
      constructor
      · intro h hmem
        rcases hmem with h1 | h1
        · exact hp h1.symm
        · exact h h1
      · intro h
        exact fun h1 => h (Or.inr h1)

theorem le_foldl_max (l : List Nat) (a : Nat) : a ≤ l.foldl Nat.max a := by
  induction l generalizing a with
  | nil => exact Nat.le_refl a
  | cons x l ih =>
    have := ih (Nat.max a x)
    have h2 : a ≤ Nat.max a x := Nat.le_max_left a x
    exact Nat.le_trans h2 this

theorem foldl_max_le_of_mem (l : List Nat) : ∀ a x : Nat, x ∈ l → x ≤ l.foldl Nat.max a := by
  induction l with
  | nil => intro a x h; cases h
  | cons y l ih =>
    intro a x h
    rcases List.mem_cons.mp h with h1 | h1
    · subst h1
      exact Nat.le_trans (Nat.le_max_right a x) (le_foldl_max l (Nat.max a x))
    · exact ih (Nat.max a y) x h1

theorem foldl_max_mem (l : List Nat) : ∀ a : Nat,
    l.foldl Nat.max a = a ∨ l.foldl Nat.max a ∈ l := by
  induction l with
  | nil => exact fun a => Or.inl rfl
  | cons x l ih =>
    intro a
    rcases ih (Nat.max a x) with h | h
    · show List.foldl Nat.max (Nat.max a x) l = a ∨ List.foldl Nat.max (Nat.max a x) l ∈ x :: l
      by_cases hax : a ≤ x
      · have hm : Nat.max a x = x := Nat.max_eq_right hax
        exact Or.inr (by rw [h, hm]; exact List.mem_cons_self x l)
      · have hm : Nat.max a x = a := Nat.max_eq_left (Nat.le_of_not_le hax)
        exact Or.inl (by rw [h]; exact hm)
    · exact Or.inr (List.mem_cons_of_mem x h)

theorem foldl_max_zero_mem (l : List Nat) (h : l ≠ []) : l.foldl Nat.max 0 ∈ l := by
  rcases foldl_max_mem l 0 with h1 | h1
  · cases l with
    | nil => exact absurd rfl h
    | cons x l =>
      have hx : x ≤ List.foldl Nat.max 0 (x :: l) := foldl_max_le_of_mem _ _ _ (List.mem_cons_self x l)
      rw [h1] at hx
      have : x = 0 := Nat.le_zero.mp hx
      rw [h1, ← this]
      exact List.mem_cons_self x l
  · exact h1

theorem suffixNums_append_ok (t e : IdTable) (ns ms : List Nat)
    (ht : suffixNums t = Except.ok ns) (he : suffixNums e = Except.ok ms) :
    suffixNums (t ++ e) = Except.ok (ns ++ ms) := by
  induction t generalizing ns with
  | nil =>
    cases ht
    exact he
  | cons p t ih =>
    simp only [suffixNums] at ht
    cases hid : idNum p.2 with
    | none => rw [hid] at ht; cases ht
    | some n =>
      rw [hid] at ht
      cases hrec : suffixNums t with
      | error e' => rw [hrec] at ht; cases ht
      | ok ns' =>
        rw [hrec] at ht
        cases ht
        rw [List.cons_append]
        simp only [suffixNums]
        rw [hid, ih ns' hrec]
        rfl

theorem suffixNums_mem (t : IdTable) (ns : List Nat) (h : suffixNums t = Except.ok ns) :
    ∀ v ∈ t.map Prod.snd, ∃ k ∈ ns, idNum v = some k := by
  induction t generalizing ns with
  | nil => intro v hv; cases hv
  | cons p t ih =>
    unfold suffixNums at h
    cases hid : idNum p.2 with
    | none => rw [hid] at h; cases h
    | some n =>
      rw [hid] at h
      cases hrec : suffixNums t with
      | error e' => rw [hrec] at h; cases h
      | ok ns' =>
        rw [hrec] at h
        cases h
        intro v hv
        rcases List.mem_cons.mp hv with h1 | h1
        · exact ⟨n, List.mem_cons_self n ns', h1 ▸ hid⟩
        · rcases ih ns' hrec v h1 with ⟨k, hk1, hk2⟩
          exact ⟨k, List.mem_cons_of_mem n hk1, hk2⟩

theorem suffixNums_mem_rev (t : IdTable) (ns : List Nat) (h : suffixNums t = Except.ok ns) :
    ∀ k ∈ ns, ∃ v ∈ t.map Prod.snd, idNum v = some k := by
  induction t generalizing ns with
  | nil =>
    cases h
    intro k hk
    cases hk
  | cons p t ih =>
    unfold suffixNums at h
    cases hid : idNum p.2 with
    | none => rw [hid] at h; cases h
    | some n =>
      rw [hid] at h
      cases hrec : suffixNums t with
      | error e' => rw [hrec] at h; cases h
      | ok ns' =>
        rw [hrec] at h
        cases h
        intro k hk
        rcases List.mem_cons.mp hk with h1 | h1
        · exact ⟨p.2, by simp, h1 ▸ hid⟩
        · rcases ih ns' hrec k h1 with ⟨v, hv1, hv2⟩
          exact ⟨v, List.mem_cons_of_mem p.2 hv1, hv2⟩

theorem suffixNums_of_formatId (e : IdTable) (h : ∀ q ∈ e, ∃ m, q.2 = formatId m) :
    ∃ ms, suffixNums e = Except.ok ms := by
  induction e with
  | nil => exact ⟨[], rfl⟩
  | cons p e ih =>
    rcases h p (List.mem_cons_self p e) with ⟨m, hm⟩
    rcases ih (fun q hq => h q (List.mem_cons_of_mem p hq)) with ⟨ms, hms⟩
    refine ⟨m :: ms, ?_⟩
    unfold suffixNums
    rw [hm, idNum_formatId, hms]

theorem suffixNums_length (t : IdTable) (ns : List Nat) (h : suffixNums t = Except.ok ns) :
    ns.length = t.length := by
  induction t generalizing ns with
  | nil => cases h; rfl
  | cons p t ih =>
    unfold suffixNums at h
    cases hid : idNum p.2 with
    | none => rw [hid] at h; cases h
    | some n =>
      rw [hid] at h
      cases hrec : suffixNums t with
      | error e' => rw [hrec] at h; cases h
      | ok ns' =>
        rw [hrec] at h
        cases h
        simp [ih ns' hrec]

theorem nextIdOf_bound (t : IdTable) (n : Nat) (h : nextIdOf t = Except.ok n) :
    ∀ v ∈ t.map Prod.snd, ∃ k, idNum v = some k ∧ k < n := by
  unfold nextIdOf at h
  cases t with
  | nil => intro v hv; cases hv
  | cons p t =>
    rw [if_neg (by simp)] at h
    cases hs : suffixNums (p :: t) with
    | error e' => rw [hs] at h; cases h
    | ok ns =>
      rw [hs] at h
      cases h
      intro v hv
      rcases suffixNums_mem _ _ hs v hv with ⟨k, hk1, hk2⟩
      exact ⟨k, hk2, Nat.lt_succ_of_le (foldl_max_le_of_mem _ _ _ hk1)⟩

theorem nextIdOf_max_attained (t : IdTable) (n : Nat) (hne : t ≠ [])
    (h : nextIdOf t = Except.ok n) : ∃ v ∈ t.map Prod.snd, idNum v = some (n - 1) := by
  unfold nextIdOf at h
  rw [if_neg (by simp [hne])] at h
  cases hs : suffixNums t with
  | error e' => rw [hs] at h; cases h
  | ok ns =>
    rw [hs] at h
    cases h
    have hlen : ns ≠ [] := by
      intro hnil
      have := suffixNums_length _ _ hs
      rw [hnil] at this
      cases t with
      | nil => exact hne rfl
      | cons p t => simp at this
    have hmem := foldl_max_zero_mem ns hlen
    rcases suffixNums_mem_rev _ _ hs _ hmem with ⟨v, hv1, hv2⟩
    exact ⟨v, hv1, by simpa using hv2⟩

theorem nextIdOf_fresh (t : IdTable) (n : Nat) (h : nextIdOf t = Except.ok n)
    (m : Nat) (hm : n ≤ m) : formatId m ∉ t.map Prod.snd := by
  intro hmem
  rcases nextIdOf_bound t n h _ hmem with ⟨k, hk1, hk2⟩
  rw [idNum_formatId] at hk1
  cases hk1
  omega

theorem nextIdOf_append_ok (t e : IdTable) (n : Nat) (h : nextIdOf t = Except.ok n)
    (he : ∀ q ∈ e, ∃ m, q.2 = formatId m) : ∃ n', nextIdOf (t ++ e) = Except.ok n' := by
  rcases suffixNums_of_formatId e he with ⟨ms, hms⟩
  have hts : ∃ ns, suffixNums t = Except.ok ns := by
    cases t with
    | nil => exact ⟨[], rfl⟩
    | cons p t' =>
      unfold nextIdOf at h
      rw [if_neg (by simp)] at h
      cases hs : suffixNums (p :: t') with
      | error e' => rw [hs] at h; cases h
      | ok ns => exact ⟨ns, rfl⟩
  rcases hts with ⟨ns, hns⟩
  have hall : suffixNums (t ++ e) = Except.ok (ns ++ ms) := suffixNums_append_ok _ _ _ _ hns hms
  by_cases hemp : (t ++ e).isEmpty = true
  · exact ⟨1, by unfold nextIdOf; rw [if_pos hemp]⟩
  · refine ⟨(ns ++ ms).foldl Nat.max 0 + 1, ?_⟩
    unfold nextIdOf
    rw [if_neg hemp, hall]

/- ---------------------------------------------------------------------
Lemmas: the identifier-assignment loop.
--------------------------------------------------------------------- -/

theorem okPair_inj {α β : Type} {x a : α} {y b : β}
    (h : (Except.ok (x, y) : Except PyErr (α × β)) = Except.ok (a, b)) : x = a ∧ y = b := by
  cases h
  exact ⟨rfl, rfl⟩

theorem assignLoop_shape (cat : String) : ∀ (rs : List Record) (t : IdTable) (n : Nat)
    (rs' : List Record) (t' : IdTable), assignLoop cat rs t n = Except.ok (rs', t') →
    ∃ e, t' = t ++ e ∧ rs'.length = rs.length ∧
      ∀ j (hj : j < e.length), (e.get ⟨j, hj⟩).2 = formatId (n + j) := by
  intro rs
  induction rs with
  | nil =>
    intro t n rs' t' h
    cases h
    exact ⟨[], by simp, rfl, fun j hj => absurd hj (by simp)⟩
  | cons r rs ih =>
    intro t n rs' t' h
    simp only [assignLoop] at h
    cases hsf : senderField cat with
    | none =>
      simp only [hsf] at h
      cases hrec : assignLoop cat rs t n with
      | error e => rw [hrec] at h; cases h
      | ok p =>
        obtain ⟨rs0, t0⟩ := p
        rw [hrec] at h
        obtain ⟨h3, h4⟩ := okPair_inj h
        subst h3
        subst h4
        obtain ⟨e, he, hlen, hj⟩ := ih t n rs0 t0 hrec
        exact ⟨e, he, by simp [hlen], hj⟩
    | some f =>
      simp only [hsf] at h
      cases hg : getField r f with
      | none =>
        simp only [hg] at h
        cases h
      | some sender =>
        simp only [hg] at h
        cases hl : lookupT t sender with
        | some ident =>
          simp only [hl] at h
          cases hrec : assignLoop cat rs t n with
          | error e => rw [hrec] at h; cases h
          | ok p =>
            obtain ⟨rs0, t0⟩ := p
            rw [hrec] at h
            obtain ⟨h3, h4⟩ := okPair_inj h
            subst h3
            subst h4
            obtain ⟨e, he, hlen, hj⟩ := ih t n rs0 t0 hrec
            exact ⟨e, he, by simp [hlen], hj⟩
        | none =>
          simp only [hl] at h
          cases hrec : assignLoop cat rs (t ++ [(sender, formatId n)]) (n + 1) with
          | error e => rw [hrec] at h; cases h
          | ok p =>
            obtain ⟨rs0, t0⟩ := p
            rw [hrec] at h
            obtain ⟨h3, h4⟩ := okPair_inj h
            subst h3
            subst h4
            obtain ⟨e, he, hlen, hj⟩ := ih _ _ rs0 t0 hrec
            refine ⟨(sender, formatId n) :: e, ?_, by simp [hlen], ?_⟩
            · rw [he, List.append_assoc]
              rfl
            · intro j hj'
              cases j with
              | zero => rfl
              | succ j =>
                have hj2 : j < e.length := by simpa using hj'
                show (e.get ⟨j, hj2⟩).2 = formatId (n + (j + 1))
                have harith : n + 1 + j = n + (j + 1) := by omega
                rw [hj j hj2, harith]

theorem assignLoop_stable (cat : String) : ∀ (rs : List Record) (t : IdTable) (n : Nat)
    (rs' : List Record) (t' : IdTable), assignLoop cat rs t n = Except.ok (rs', t') →
    ∀ (tb : IdTable) (m : Nat), (∀ k v, lookupT t' k = some v → lookupT tb k = some v) →
    assignLoop cat rs tb m = Except.ok (rs', tb) := by
  intro rs
  induction rs with
  | nil =>
    intro t n rs' t' h tb m hsub
    cases h
    rfl
  | cons r rs ih =>
    intro t n rs' t' h tb m hsub
    simp only [assignLoop] at h ⊢
    cases hsf : senderField cat with
    | none =>
      simp only [hsf] at h ⊢
      cases hrec : assignLoop cat rs t n with
      | error e => rw [hrec] at h; cases h
      | ok p =>
        obtain ⟨rs0, t0⟩ := p
        rw [hrec] at h
        obtain ⟨h3, h4⟩ := okPair_inj h
        subst h3
        subst h4
        rw [ih t n rs0 t0 hrec tb m hsub]
    | some f =>
      simp only [hsf] at h ⊢
      cases hg : getField r f with
      | none =>
        simp only [hg] at h
        cases h
      | some sender =>
        simp only [hg] at h ⊢
        cases hl : lookupT t sender with
        | some ident =>
          simp only [hl] at h
          cases hrec : assignLoop cat rs t n with
          | error e => rw [hrec] at h; cases h
          | ok p =>
            obtain ⟨rs0, t0⟩ := p
            rw [hrec] at h
            obtain ⟨h3, h4⟩ := okPair_inj h
            subst h3
            subst h4
            have hident : lookupT t0 sender = some ident := by
              obtain ⟨e, he, _, _⟩ := assignLoop_shape cat rs t n rs0 t0 hrec
              rw [he]
              exact lookupT_append_left _ _ _ _ hl
            have htb : lookupT tb sender = some ident := hsub _ _ hident
            simp only [htb]
            rw [ih t n rs0 t0 hrec tb m hsub]
        | none =>
          simp only [hl] at h
          cases hrec : assignLoop cat rs (t ++ [(sender, formatId n)]) (n + 1) with
          | error e => rw [hrec] at h; cases h
          | ok p =>
            obtain ⟨rs0, t0⟩ := p
            rw [hrec] at h
            obtain ⟨h3, h4⟩ := okPair_inj h
            subst h3
            subst h4
            have hins : lookupT (t ++ [(sender, formatId n)]) sender = some (formatId n) := by
              rw [lookupT_append_right _ _ _ hl]
              simp [lookupT]
            have hident : lookupT t0 sender = some (formatId n) := by
              obtain ⟨e, he, _, _⟩ := assignLoop_shape cat rs _ _ rs0 t0 hrec
              rw [he]
              exact lookupT_append_left _ _ _ _ hins
            have htb : lookupT tb sender = some (formatId n) := hsub _ _ hident
            simp only [htb]
            rw [ih _ _ rs0 t0 hrec tb m hsub]

theorem assignLoop_attach (cat : String) : ∀ (rs : List Record) (t : IdTable) (n : Nat)
    (rs' : List Record) (t' : IdTable), assignLoop cat rs t n = Except.ok (rs', t') →
    ∀ (i : Nat) (hi : i < rs.length) (hi' : i < rs'.length) (f : String) (k : Value) (idv : String),
      senderField cat = some f → getField (rs.get ⟨i, hi⟩) f = some k → lookupT t k = some idv →
      rs'.get ⟨i, hi'⟩ = setField (rs.get ⟨i, hi⟩) "identifier" (Value.str idv) := by
  intro rs
  induction rs with
  | nil =>
    intro t n rs' t' h i hi
    cases hi
  | cons r rs ih =>
    intro t n rs' t' h i hi hi' f k idv hsf hget hlook
    simp only [assignLoop] at h
    simp only [hsf] at h
    cases hg : getField r f with
    | none =>
      simp only [hg] at h
      cases h
    | some sender =>
      simp only [hg] at h
      cases hl : lookupT t sender with
      | some ident =>
        simp only [hl] at h
        cases hrec : assignLoop cat rs t n with
        | error e => rw [hrec] at h; cases h
        | ok p =>
          obtain ⟨rs0, t0⟩ := p
          rw [hrec] at h
          obtain ⟨h3, h4⟩ := okPair_inj h
          subst h3
          subst h4
          cases i with
          | zero =>
            show setField r "identifier" (Value.str ident) = setField r "identifier" (Value.str idv)
            have hk : sender = k := by
              have := hget
              simp only [List.get] at this
              rw [hg] at this
              exact Option.some.inj this
            subst hk
            rw [hl] at hlook
            rw [Option.some.inj hlook]
          | succ i =>
            have hi2 : i < rs.length := by simpa using hi
            have hi2' : i < rs0.length := by simpa using hi'
            have hget2 : getField (rs.get ⟨i, hi2⟩) f = some k := hget
            exact ih t n rs0 t0 hrec i hi2 hi2' f k idv hsf hget2 hlook
      | none =>
        simp only [hl] at h
        cases hrec : assignLoop cat rs (t ++ [(sender, formatId n)]) (n + 1) with
        | error e => rw [hrec] at h; cases h
        | ok p =>
          obtain ⟨rs0, t0⟩ := p
          rw [hrec] at h
          obtain ⟨h3, h4⟩ := okPair_inj h
          subst h3
          subst h4
          cases i with
          | zero =>
            have hk : sender = k := by
              have := hget
              simp only [List.get] at this
              rw [hg] at this
              exact Option.some.inj this
            subst hk
            rw [hl] at hlook
            cases hlook
          | succ i =>
            have hi2 : i < rs.length := by simpa using hi
            have hi2' : i < rs0.length := by simpa using hi'
            have hget2 : getField (rs.get ⟨i, hi2⟩) f = some k := hget
            have hlook2 : lookupT (t ++ [(sender, formatId n)]) k = some idv :=
              lookupT_append_left _ _ _ _ hlook
            exact ih _ _ rs0 t0 hrec i hi2 hi2' f k idv hsf hget2 hlook2

theorem assignLoop_keysNodup (cat : String) : ∀ (rs : List Record) (t : IdTable) (n : Nat)
    (rs' : List Record) (t' : IdTable), assignLoop cat rs t n = Except.ok (rs', t') →
    (t.map Prod.fst).Nodup → (t'.map Prod.fst).Nodup := by
  intro rs
  induction rs with
  | nil =>
    intro t n rs' t' h hk
    cases h
    exact hk
  | cons r rs ih =>
    intro t n rs' t' h hk
    simp only [assignLoop] at h
    cases hsf : senderField cat with
    | none =>
      simp only [hsf] at h
      cases hrec : assignLoop cat rs t n with
      | error e => rw [hrec] at h; cases h
      | ok p =>
        obtain ⟨rs0, t0⟩ := p
        rw [hrec] at h
        obtain ⟨h3, h4⟩ := okPair_inj h
        subst h3
        subst h4
        exact ih t n rs0 t0 hrec hk
    | some f =>
      simp only [hsf] at h
      cases hg : getField r f with
      | none =>
        simp only [hg] at h
        cases h
      | some sender =>
        simp only [hg] at h
        cases hl : lookupT t sender with
        | some ident =>
          simp only [hl] at h
          cases hrec : assignLoop cat rs t n with
          | error e => rw [hrec] at h; cases h
          | ok p =>
            obtain ⟨rs0, t0⟩ := p
            rw [hrec] at h
            obtain ⟨h3, h4⟩ := okPair_inj h
            subst h3
            subst h4
            exact ih t n rs0 t0 hrec hk
        | none =>
          simp only [hl] at h
          cases hrec : assignLoop cat rs (t ++ [(sender, formatId n)]) (n + 1) with
          | error e => rw [hrec] at h; cases h
          | ok p =>
            obtain ⟨rs0, t0⟩ := p
            rw [hrec] at h
            obtain ⟨h3, h4⟩ := okPair_inj h
            subst h3
            subst h4
            apply ih _ _ rs0 t0 hrec
            rw [List.map_append]
            apply List.Nodup.append hk (List.nodup_singleton _)
            intro a ha hb
            simp only [List.map_cons, List.map_nil, List.mem_singleton] at hb
            rw [hb] at ha
            exact ((lookupT_none_iff t sender).mp hl) ha

theorem assignLoop_valsNodup (cat : String) : ∀ (rs : List Record) (t : IdTable) (n : Nat)
    (rs' : List Record) (t' : IdTable), assignLoop cat rs t n = Except.ok (rs', t') →
    (t.map Prod.snd).Nodup → (∀ m, n ≤ m → formatId m ∉ t.map Prod.snd) →
    (t'.map Prod.snd).Nodup := by
  intro rs
  induction rs with
  | nil =>
    intro t n rs' t' h hv _
    cases h
    exact hv
  | cons r rs ih =>
    intro t n rs' t' h hv hfresh
    simp only [assignLoop] at h
    cases hsf : senderField cat with
    | none =>
      simp only [hsf] at h
      cases hrec : assignLoop cat rs t n with
      | error e => rw [hrec] at h; cases h
      | ok p =>
        obtain ⟨rs0, t0⟩ := p
        rw [hrec] at h
        obtain ⟨h3, h4⟩ := okPair_inj h
        subst h3
        subst h4
        exact ih t n rs0 t0 hrec hv hfresh
    | some f =>
      simp only [hsf] at h
      cases hg : getField r f with
      | none =>
        simp only [hg] at h
        cases h
      | some sender =>
        simp only [hg] at h
        cases hl : lookupT t sender with
        | some ident =>
          simp only [hl] at h
          cases hrec : assignLoop cat rs t n with
          | error e => rw [hrec] at h; cases h
          | ok p =>
            obtain ⟨rs0, t0⟩ := p
            rw [hrec] at h
            obtain ⟨h3, h4⟩ := okPair_inj h
            subst h3
            subst h4
            exact ih t n rs0 t0 hrec hv hfresh
        | none =>
          simp only [hl] at h
          cases hrec : assignLoop cat rs (t ++ [(sender, formatId n)]) (n + 1) with
          | error e => rw [hrec] at h; cases h
          | ok p =>
            obtain ⟨rs0, t0⟩ := p
            rw [hrec] at h
            obtain ⟨h3, h4⟩ := okPair_inj h
            subst h3
            subst h4
            apply ih _ _ rs0 t0 hrec
            · rw [List.map_append]
              apply List.Nodup.append hv (List.nodup_singleton _)
              intro a ha hb
              simp only [List.map_cons, List.map_nil, List.mem_singleton] at hb
              subst hb
              exact hfresh n (Nat.le_refl n) ha
            · intro m hm hmem
              rw [List.map_append] at hmem
              rcases List.mem_append.mp hmem with h1 | h1
              · exact hfresh m (by omega) h1
              · simp only [List.map_cons, List.map_nil, List.mem_singleton] at h1
                have := formatId_injective m n h1
                omega

theorem assignLoop_missing (cat f : String) (hsf : senderField cat = some f) :
    ∀ (rs : List Record), (∃ r ∈ rs, getField r f = Option.none) →
    ∀ (t : IdTable) (n : Nat), assignLoop cat rs t n = Except.error (PyErr.keyError f) := by
  intro rs
  induction rs with
  | nil =>
    intro hex t n
    rcases hex with ⟨r, hr, _⟩
    cases hr
  | cons r rs ih =>
    intro hex t n
    simp only [assignLoop, hsf]
    cases hg : getField r f with
    | none => simp [hg]
    | some sender =>
      have hex2 : ∃ r' ∈ rs, getField r' f = Option.none := by
        rcases hex with ⟨r', hr', hget'⟩
        rcases List.mem_cons.mp hr' with h1 | h1
        · subst h1
          rw [hg] at hget'
          cases hget'
        · exact ⟨r', h1, hget'⟩
      simp only [hg]
      cases hl : lookupT t sender with
      | some ident => simp [ih hex2]
      | none => simp [ih hex2]

theorem assignLoop_passthrough (cat : String) (hsf : senderField cat = Option.none) :
    ∀ (rs : List Record) (t : IdTable) (n : Nat), assignLoop cat rs t n = Except.ok (rs, t) := by
  intro rs
  induction rs with
  | nil => intro t n; rfl
  | cons r rs ih =>
    intro t n
    simp only [assignLoop, hsf]
    rw [ih t n]

/- ---------------------------------------------------------------------
Lemmas: the duplicate-filter loop.
--------------------------------------------------------------------- -/

theorem recordKey_ok_fields (r : Record) : ∀ (fields : List String) (key : List Value),
    recordKey fields r = Except.ok key → ∀ f ∈ fields, ∃ v, getField r f = some v := by
  intro fields
  induction fields with
  | nil => intro key _ f hf; cases hf
  | cons f0 fs ih =>
    intro key h f hf
    simp only [recordKey] at h
    cases hg : getField r f0 with
    | none => rw [hg] at h; cases h
    | some v =>
      rw [hg] at h
      cases hrec : recordKey fs r with
      | error e => rw [hrec] at h; cases h
      | ok vs =>
        rcases List.mem_cons.mp hf with h1 | h1
        · subst h1
          exact ⟨v, hg⟩
        · exact ih vs hrec f h1

theorem recordKey_error_mem (r : Record) : ∀ (fields : List String) (e : PyErr),
    recordKey fields r = Except.error e → ∃ f ∈ fields, e = PyErr.keyError f := by
  intro fields
  induction fields with
  | nil => intro e h; cases h
  | cons f0 fs ih =>
    intro e h
    simp only [recordKey] at h
    cases hg : getField r f0 with
    | none =>
      rw [hg] at h
      cases h
      exact ⟨f0, List.mem_cons_self f0 fs, rfl⟩
    | some v =>
      rw [hg] at h
      cases hrec : recordKey fs r with
      | error e' =>
        rw [hrec] at h
        have he : e' = e := Except.error.inj h
        rcases ih e' hrec with ⟨f, hf, he2⟩
        exact ⟨f, List.mem_cons_of_mem f0 hf, by rw [← he]; exact he2⟩
      | ok vs => rw [hrec] at h; cases h

theorem recordKey_missing (r : Record) : ∀ (fields : List String),
    (∃ f ∈ fields, getField r f = Option.none) →
    ∃ e, recordKey fields r = Except.error e := by
  intro fields
  induction fields with
  | nil => intro h; rcases h with ⟨f, hf, _⟩; cases hf
  | cons f0 fs ih =>
    intro h
    simp only [recordKey]
    cases hg : getField r f0 with
    | none => exact ⟨PyErr.keyError f0, rfl⟩
    | some v =>
      have h2 : ∃ f ∈ fs, getField r f = Option.none := by
        rcases h with ⟨f, hf, hgf⟩
        rcases List.mem_cons.mp hf with h1 | h1
        · subst h1
          rw [hg] at hgf
          cases hgf
        · exact ⟨f, h1, hgf⟩
      rcases ih h2 with ⟨e, he⟩
      rw [he]
      exact ⟨e, rfl⟩

theorem preventLoop_sublist (fields : List String) : ∀ (rs : List Record)
    (seen : List (List Value)) (out : List Record),
    preventLoop fields seen rs = Except.ok out → out.Sublist rs := by
  intro rs
  induction rs with
  | nil =>
    intro seen out h
    cases h
    exact List.Sublist.refl []
  | cons r rs ih =>
    intro seen out h
    simp only [preventLoop] at h
    cases hk : recordKey fields r with
    | error e => rw [hk] at h; cases h
    | ok key =>
      simp only [hk] at h
      by_cases hseen : key ∈ seen
      · rw [if_pos hseen] at h
        exact (ih seen out h).cons r
      · rw [if_neg hseen] at h
        cases hrec : preventLoop fields (key :: seen) rs with
        | error e => rw [hrec] at h; cases h
        | ok out0 =>
          rw [hrec] at h
          cases h
          exact (ih (key :: seen) out0 hrec).cons₂ r

theorem preventLoop_keys (fields : List String) : ∀ (rs : List Record)
    (seen : List (List Value)) (out : List Record),
    preventLoop fields seen rs = Except.ok out →
    (∀ r ∈ out, ∃ k, recordKey fields r = Except.ok k ∧ k ∉ seen) ∧
      List.Pairwise (fun a b => recordKey fields a ≠ recordKey fields b) out := by
  intro rs
  induction rs with
  | nil =>
    intro seen out h
    cases h
    exact ⟨fun r hr => absurd hr (List.not_mem_nil r), List.Pairwise.nil⟩
  | cons r rs ih =>
    intro seen out h
    simp only [preventLoop] at h
    cases hk : recordKey fields r with
    | error e => rw [hk] at h; cases h
    | ok key =>
      simp only [hk] at h
      by_cases hseen : key ∈ seen
      · rw [if_pos hseen] at h
        exact ih seen out h
      · rw [if_neg hseen] at h
        cases hrec : preventLoop fields (key :: seen) rs with
        | error e => rw [hrec] at h; cases h
        | ok out0 =>
          rw [hrec] at h
          cases h
          obtain ⟨hmem, hpw⟩ := ih (key :: seen) out0 hrec
          constructor
          · intro r' hr'
            rcases List.mem_cons.mp hr' with h1 | h1
            · subst h1
              exact ⟨key, hk, hseen⟩
            · rcases hmem r' h1 with ⟨k', hk', hns'⟩
              refine ⟨k', hk', fun hc => hns' (List.mem_cons_of_mem key hc)⟩
          · refine List.Pairwise.cons ?_ hpw
            intro b hb heq
            rcases hmem b hb with ⟨kb, hkb, hnsb⟩
            rw [hk, hkb] at heq
            have : key = kb := Except.ok.inj heq
            subst this
            exact hnsb (List.mem_cons_self key seen)

theorem keyFilter_nil (fields : List String) (key : List Value) :
    keyFilter fields key [] = [] := rfl

theorem keyFilter_cons_pos (fields : List String) (key : List Value) (r : Record)
    (out : List Record) (h : recordKey fields r = Except.ok key) :
    keyFilter fields key (r :: out) = r :: keyFilter fields key out := by
  unfold keyFilter
  rw [List.filter_cons_of_pos]
  simp [h]

theorem keyFilter_cons_neg (fields : List String) (key : List Value) (r : Record)
    (out : List Record) (h : ¬recordKey fields r = Except.ok key) :
    keyFilter fields key (r :: out) = keyFilter fields key out := by
  unfold keyFilter
  rw [List.filter_cons_of_neg]
  simp [h]

theorem preventLoop_firstkey (fields : List String) : ∀ (rs : List Record)
    (seen : List (List Value)) (out : List Record),
    preventLoop fields seen rs = Except.ok out → ∀ key : List Value,
    (key ∈ seen → keyFilter fields key out = []) ∧
      (key ∉ seen → keyFilter fields key out = (keyFilter fields key rs).take 1) := by
  intro rs
  induction rs with
  | nil =>
    intro seen out h key
    cases h
    exact ⟨fun _ => rfl, fun _ => rfl⟩
  | cons r rs ih =>
    intro seen out h key
    simp only [preventLoop] at h
    cases hk : recordKey fields r with
    | error e => rw [hk] at h; cases h
    | ok rk =>
      simp only [hk] at h
      by_cases hseen : rk ∈ seen
      · rw [if_pos hseen] at h
        constructor
        · intro hks
          exact (ih seen out h key).1 hks
        · intro hks
          have hne : ¬recordKey fields r = Except.ok key := by
            rw [hk]
            intro hc
            have : rk = key := Except.ok.inj hc
            subst this
            exact hks hseen
          rw [keyFilter_cons_neg _ _ _ _ hne]
          exact (ih seen out h key).2 hks
      · rw [if_neg hseen] at h
        cases hrec : preventLoop fields (rk :: seen) rs with
        | error e => rw [hrec] at h; cases h
        | ok out0 =>
          rw [hrec] at h
          cases h
          constructor
          · intro hks
            have hne : ¬recordKey fields r = Except.ok key := by
              rw [hk]
              intro hc
              have : rk = key := Except.ok.inj hc
              subst this
              exact hseen hks
            rw [keyFilter_cons_neg _ _ _ _ hne]
            exact (ih (rk :: seen) out0 hrec key).1 (List.mem_cons_of_mem rk hks)
          · intro hks
            by_cases hkey : key = rk
            · subst hkey
              rw [keyFilter_cons_pos _ _ _ _ hk, keyFilter_cons_pos _ _ _ _ hk]
              have h0 : keyFilter fields key out0 = [] :=
                (ih (key :: seen) out0 hrec key).1 (List.mem_cons_self key seen)
              rw [h0]
              rfl
            · have hne : ¬recordKey fields r = Except.ok key := by
                rw [hk]
                intro hc
                exact hkey (Except.ok.inj hc).symm
              rw [keyFilter_cons_neg _ _ _ _ hne, keyFilter_cons_neg _ _ _ _ hne]
              refine (ih (rk :: seen) out0 hrec key).2 ?_
              intro hc
              rcases List.mem_cons.mp hc with h1 | h1
              · exact hkey h1
              · exact hks h1

theorem preventLoop_missing (fields : List String) : ∀ (rs : List Record)
    (seen : List (List Value)),
    (∃ r ∈ rs, ∃ f ∈ fields, getField r f = Option.none) →
    ∃ f' ∈ fields, preventLoop fields seen rs = Except.error (PyErr.keyError f') := by
  intro rs
  induction rs with
  | nil =>
    intro seen h
    rcases h with ⟨r, hr, _⟩
    cases hr
  | cons r rs ih =>
    intro seen hex
    cases hk : recordKey fields r with
    | error e =>
      rcases recordKey_error_mem r fields e hk with ⟨f, hf, he⟩
      subst he
      refine ⟨f, hf, ?_⟩
      simp only [preventLoop, hk]
    | ok key =>
      have hex2 : ∃ r' ∈ rs, ∃ f ∈ fields, getField r' f = Option.none := by
        rcases hex with ⟨r', hr', hf'⟩
        rcases List.mem_cons.mp hr' with h1 | h1
        · subst h1
          rcases recordKey_missing r' fields hf' with ⟨e, he⟩
          rw [he] at hk
          cases hk
        · exact ⟨r', h1, hf'⟩
      by_cases hseen : key ∈ seen
      · rcases ih seen hex2 with ⟨f', hf', herr⟩
        refine ⟨f', hf', ?_⟩
        simp [preventLoop, hk, hseen, herr]
      · rcases ih (key :: seen) hex2 with ⟨f', hf', herr⟩
        refine ⟨f', hf', ?_⟩
        simp [preventLoop, hk, hseen, herr]

/- ---------------------------------------------------------------------
Lemmas: category detection, merging, and the pipeline.
--------------------------------------------------------------------- -/

theorem firstMatch_spec (L : List (String × List String)) (cols : List String) :
    (∀ name, firstMatch L cols = some name →
      ∃ i, ∃ hi : i < L.length, (L.get ⟨i, hi⟩).1 = name ∧
        hasAll (L.get ⟨i, hi⟩).2 cols = true ∧
        ∀ j (hj : j < i), hasAll (L.get ⟨j, Nat.lt_trans hj hi⟩).2 cols = false) ∧
    (firstMatch L cols = Option.none → ∀ p ∈ L, hasAll p.2 cols = false) := by
  induction L with
  | nil =>
    constructor
    · intro name h
      cases h
    · intro _ p hp
      cases hp
  | cons p L ih =>
    by_cases hm : hasAll p.2 cols = true
    · constructor
      · intro name h
        simp only [firstMatch, if_pos hm] at h
        refine ⟨0, Nat.succ_pos _, Option.some.inj h, hm, ?_⟩
        intro j hj
        cases hj
      · intro h
        simp only [firstMatch, if_pos hm] at h
        cases h
    · have hm' : hasAll p.2 cols = false := Bool.eq_false_iff.mpr hm
      constructor
      · intro name h
        simp only [firstMatch, if_neg hm] at h
        rcases ih.1 name h with ⟨i, hi, h1, h2, h3⟩
        refine ⟨i + 1, Nat.succ_lt_succ hi, h1, h2, ?_⟩
        intro j hj
        cases j with
        | zero => exact hm'
        | succ j => exact h3 j (Nat.lt_of_succ_lt_succ hj)
      · intro h q hq
        simp only [firstMatch, if_neg hm] at h
        rcases List.mem_cons.mp hq with h1 | h1
        · subst h1
          exact hm'
        · exact ih.2 h q h1

theorem lookupCats_mergeCategory_self : ∀ (cats : List (String × List Record))
    (cat : String) (es : List Record),
    lookupCats (mergeCategory cats cat es) cat = some ((lookupCats cats cat).getD [] ++ es) := by
  intro cats
  induction cats with
  | nil =>
    intro cat es
    simp [mergeCategory, lookupCats]
  | cons p cs ih =>
    intro cat es
    by_cases hp : p.1 = cat
    · simp only [mergeCategory, if_pos hp, lookupCats, hp]
      simp
    · simp only [mergeCategory, if_neg hp, lookupCats, if_neg hp]
      exact ih cat es

theorem lookupCats_mergeCategory_other : ∀ (cats : List (String × List Record))
    (cat : String) (es : List Record) (c : String), c ≠ cat →
    lookupCats (mergeCategory cats cat es) c = lookupCats cats c := by
  intro cats
  induction cats with
  | nil =>
    intro cat es c hne
    have h2 : ¬(cat = c) := fun h => hne h.symm
    simp [mergeCategory, lookupCats, h2]
  | cons p cs ih =>
    intro cat es c hne
    by_cases hp : p.1 = cat
    · have hpc : ¬(p.1 = c) := by
        rw [hp]
        exact fun h => hne h.symm
      simp only [mergeCategory, if_pos hp, lookupCats, if_neg hpc]
    · simp only [mergeCategory, if_neg hp, lookupCats]
      by_cases hpc : p.1 = c
      · rw [if_pos hpc, if_pos hpc]
      · rw [if_neg hpc, if_neg hpc]
        exact ih cat es c hne

theorem processRun_inv (parse : Value → Except PyErr String) (store : Store)
    (cols : List String) (rows : List Record) (s : Store)
    (h : processRun parse store cols rows = Except.ok s) :
    ∃ cat rowsN rowsA t' es, detect_data_category cols = some cat ∧
      normalizeRows parse rows = Except.ok rowsN ∧
      assign_unique_identifiers rowsN cat store.identifiers = Except.ok (rowsA, t') ∧
      prevent_duplicate_entries rowsA cat = Except.ok es ∧
      s = ⟨mergeCategory store.cats cat es, t'⟩ := by
  unfold processRun at h
  cases hdet : detect_data_category cols with
  | none => rw [hdet] at h; cases h
  | some cat =>
    simp only [hdet] at h
    cases hnorm : normalizeRows parse rows with
    | error e => rw [hnorm] at h; cases h
    | ok rowsN =>
      simp only [hnorm] at h
      cases hass : assign_unique_identifiers rowsN cat store.identifiers with
      | error e => rw [hass] at h; cases h
      | ok p =>
        obtain ⟨rowsA, t'⟩ := p
        simp only [hass] at h
        cases hprev : prevent_duplicate_entries rowsA cat with
        | error e => rw [hprev] at h; cases h
        | ok es =>
          simp only [hprev] at h
          cases h
          exact ⟨cat, rowsN, rowsA, t', es, rfl, rfl, hass, hprev, rfl⟩

theorem processRun_mk (parse : Value → Except PyErr String) (store : Store)
    (cols : List String) (rows : List Record) (cat : String) (rowsN rowsA : List Record)
    (t' : IdTable) (es : List Record)
    (hdet : detect_data_category cols = some cat)
    (hnorm : normalizeRows parse rows = Except.ok rowsN)
    (hass : assign_unique_identifiers rowsN cat store.identifiers = Except.ok (rowsA, t'))
    (hprev : prevent_duplicate_entries rowsA cat = Except.ok es) :
    processRun parse store cols rows = Except.ok ⟨mergeCategory store.cats cat es, t'⟩ := by
  unfold processRun
  simp only [hdet, hnorm, hass, hprev]

theorem assign_stable (cat : String) (rs : List Record) (t : IdTable) (rA : List Record)
    (t' : IdTable) (h : assign_unique_identifiers rs cat t = Except.ok (rA, t')) :
    assign_unique_identifiers rs cat t' = Except.ok (rA, t') := by
  unfold assign_unique_identifiers at h ⊢
  cases hn : nextIdOf t with
  | error e => rw [hn] at h; cases h
  | ok n =>
    rw [hn] at h
    have h2 : assignLoop cat rs t n = Except.ok (rA, t') := h
    obtain ⟨e, he, _, hj⟩ := assignLoop_shape cat rs t n rA t' h2
    have hvals : ∀ q ∈ e, ∃ m, q.2 = formatId m := by
      intro q hq
      rcases List.get_of_mem hq with ⟨⟨j, hjl⟩, hget⟩
      exact ⟨n + j, by rw [← hget]; exact hj j hjl⟩
    subst he
    rcases nextIdOf_append_ok t e n hn hvals with ⟨n', hn'⟩
    rw [hn']
    exact assignLoop_stable cat rs t n rA (t ++ e) h2 (t ++ e) n' (fun k v hv => hv)

/- ---------------------------------------------------------------------
Claim theorems.
--------------------------------------------------------------------- -/

/-- C5: for every set of input column names, `detect_data_category` returns
the first category, in the fixed order Messenger, SMS, Calls, Keylog,
Contacts, Installed Apps (the order of `categoriesList`), whose entire
required-column set is contained in the input column names, with extra
columns ignored; if no category's required set is contained it returns
`none` (Unrecognized); and repeated calls on the same column set return
the same result. -/
theorem detect_first_match (cols : List String) :
    (match detect_data_category cols with
     | some name =>
       ∃ i, ∃ hi : i < categoriesList.length, (categoriesList.get ⟨i, hi⟩).1 = name ∧
         hasAll (categoriesList.get ⟨i, hi⟩).2 cols = true ∧
         ∀ j (hj : j < i), hasAll (categoriesList.get ⟨j, Nat.lt_trans hj hi⟩).2 cols = false
     | Option.none => ∀ p ∈ categoriesList, hasAll p.2 cols = false) ∧
    detect_data_category cols = detect_data_category cols := by
  refine ⟨?_, rfl⟩
  cases hd : detect_data_category cols with
  | some name => exact (firstMatch_spec categoriesList cols).1 name hd
  | none => exact (firstMatch_spec categoriesList cols).2 hd

/-- Witness for C5 at a column set matching both Messenger's and Keylog's
required sets: detection returns the first in priority order. -/
theorem detect_first_match_witness :
    (∃ i, ∃ hi : i < categoriesList.length,
      (categoriesList.get ⟨i, hi⟩).1 = "Messenger" ∧
      hasAll (categoriesList.get ⟨i, hi⟩).2 ["Application", "Time", "Text", "Sender"] = true ∧
      ∀ j (hj : j < i),
        hasAll (categoriesList.get ⟨j, Nat.lt_trans hj hi⟩).2
          ["Application", "Time", "Text", "Sender"] = false) ∧
    detect_data_category ["Application", "Time", "Text", "Sender"] =
      detect_data_category ["Application", "Time", "Text", "Sender"] :=
  detect_first_match ["Application", "Time", "Text", "Sender"]

/-- C9: for the categories with no identity field (Keylog and Installed
Apps), `assign_unique_identifiers` returns every record unchanged — no
identifier field is attached — and returns the identifier table unchanged
(provided the `next_id` computation over the stored identifiers succeeds,
which it does for every table the engine itself builds). -/
theorem identifierless_passthrough (cat : String) (rs : List Record) (t : IdTable) (n : Nat)
    (hcat : cat = "Keylog" ∨ cat = "Installed Apps") (hn : nextIdOf t = Except.ok n) :
    assign_unique_identifiers rs cat t = Except.ok (rs, t) := by
  have hsf : senderField cat = Option.none := by
    rcases hcat with h | h <;> subst h <;> rfl
  unfold assign_unique_identifiers
  rw [hn]
  exact assignLoop_passthrough cat hsf rs t n

/-- Witness for C9: a Keylog batch passes through a nonempty table
untouched. -/
theorem identifierless_passthrough_witness :
    nextIdOf [(Value.str "Alice", "ID_001")] = Except.ok 2 ∧
    assign_unique_identifiers
      [[("Application", Value.str "App"), ("Time", canonTime), ("Text", Value.str "abc")]]
      "Keylog" [(Value.str "Alice", "ID_001")] =
      Except.ok ([[("Application", Value.str "App"), ("Time", canonTime), ("Text", Value.str "abc")]],
        [(Value.str "Alice", "ID_001")]) :=
  ⟨rfl, identifierless_passthrough "Keylog"
    [[("Application", Value.str "App"), ("Time", canonTime), ("Text", Value.str "abc")]]
    [(Value.str "Alice", "ID_001")] 2 (Or.inl rfl) rfl⟩

/-- C8: merging appends the run's filtered records to the end of the target
category's persisted sequence in their original relative order, leaves all
previously stored records of that category in place (they form the prefix),
and leaves every other category's sequence untouched; and every successful
pipeline run updates the per-category map only through this merge. -/
theorem merge_order_and_frame :
    (∀ (cats : List (String × List Record)) (cat : String) (es : List Record),
      lookupCats (mergeCategory cats cat es) cat =
        some ((lookupCats cats cat).getD [] ++ es) ∧
      ∀ c, c ≠ cat → lookupCats (mergeCategory cats cat es) c = lookupCats cats c) ∧
    (∀ (parse : Value → Except PyErr String) (store : Store) (cols : List String)
       (rows : List Record) (s : Store), processRun parse store cols rows = Except.ok s →
      ∃ cat es, detect_data_category cols = some cat ∧
        s.cats = mergeCategory store.cats cat es) := by
  constructor
  · intro cats cat es
    exact ⟨lookupCats_mergeCategory_self cats cat es,
      fun c hc => lookupCats_mergeCategory_other cats cat es c hc⟩
  · intro parse store cols rows s h
    rcases processRun_inv parse store cols rows s h with ⟨cat, rowsN, rowsA, t', es, hdet, _, _, _, hs⟩
    exact ⟨cat, es, hdet, by rw [hs]⟩

/-- Witness for C8: appending `bobRow` to a store holding `aliceRow` keeps
the old record as prefix and does not touch the Calls sequence. -/
theorem merge_order_and_frame_witness :
    lookupCats (mergeCategory [("Messenger", [aliceRow])] "Messenger" [bobRow]) "Messenger" =
      some [aliceRow, bobRow] ∧
    lookupCats (mergeCategory [("Messenger", [aliceRow])] "Messenger" [bobRow]) "Calls" =
      lookupCats [("Messenger", [aliceRow])] "Calls" :=
  ⟨(merge_order_and_frame.1 [("Messenger", [aliceRow])] "Messenger" [bobRow]).1,
   (merge_order_and_frame.1 [("Messenger", [aliceRow])] "Messenger" [bobRow]).2 "Calls"
     (by decide)⟩

/-- C6: if any step of a run fails — unrecognized category, missing field,
any processing error, or a failure during the save itself — the durable
store is left exactly as it was before the run; when every step and the
save succeed, the full merged store is committed.  The save is modelled
atomically per spec §4.5 (`save_json_data` is not under src/). -/
theorem atomic_commit (parse : Value → Except PyErr String) (saveOk : Bool) (disk : Store)
    (cols : List String) (rows : List Record) :
    (∀ e, processRun parse disk cols rows = Except.error e →
      runAndSave parse saveOk disk cols rows = (disk, some e)) ∧
    (∀ s, processRun parse disk cols rows = Except.ok s → saveOk = true →
      runAndSave parse saveOk disk cols rows = (s, Option.none)) ∧
    (saveOk = false → (runAndSave parse saveOk disk cols rows).1 = disk) := by
  refine ⟨?_, ?_, ?_⟩
  · intro e he
    unfold runAndSave
    rw [he]
  · intro s hs hT
    unfold runAndSave
    rw [hs, hT]
    rfl
  · intro hF
    subst hF
    unfold runAndSave
    cases hp : processRun parse disk cols rows <;> rfl

/-- Witness for C6: a run failing on a missing identity field, a run whose
save fails, and the committed store of a successful run. -/
theorem atomic_commit_witness :
    processRun dateutilParse emptyStore msgCols [[("Time", canonTime)]] =
      Except.error (PyErr.keyError "Sender") ∧
    runAndSave dateutilParse true emptyStore msgCols [[("Time", canonTime)]] =
      (emptyStore, some (PyErr.keyError "Sender")) ∧
    (runAndSave dateutilParse false emptyStore msgCols [aliceRow]).1 = emptyStore ∧
    runAndSave dateutilParse true emptyStore msgCols [aliceRow] = (store1, Option.none) :=
  ⟨rfl,
   (atomic_commit dateutilParse true emptyStore msgCols [[("Time", canonTime)]]).1
     (PyErr.keyError "Sender") rfl,
   (atomic_commit dateutilParse false emptyStore msgCols [aliceRow]).2.2 rfl,
   (atomic_commit dateutilParse true emptyStore msgCols [aliceRow]).2.1 store1 rfl rfl⟩

/-- C3: for every identifier table and batch, when assignment succeeds the
input table is a prefix of the output table (entries are only added, never
modified or removed); every existing mapping still looks up to the same
identifier afterwards; a record whose identity value is already mapped gets
exactly that existing identifier attached; and distinctness is preserved —
if the input table has pairwise-distinct identity values (keys) and
pairwise-distinct identifiers (values), so does the output table, so two
distinct identity values are never mapped to the same identifier. -/
theorem assign_identifier_stability (cat : String) (rs : List Record) (t : IdTable)
    (rA : List Record) (t' : IdTable)
    (h : assign_unique_identifiers rs cat t = Except.ok (rA, t')) :
    (∃ e, t' = t ++ e) ∧
    (∀ k v, lookupT t k = some v → lookupT t' k = some v) ∧
    rA.length = rs.length ∧
    (∀ (i : Nat) (hi : i < rs.length) (hi' : i < rA.length) (f : String) (k : Value)
       (idv : String), senderField cat = some f → getField (rs.get ⟨i, hi⟩) f = some k →
       lookupT t k = some idv →
       rA.get ⟨i, hi'⟩ = setField (rs.get ⟨i, hi⟩) "identifier" (Value.str idv)) ∧
    ((t.map Prod.fst).Nodup → (t'.map Prod.fst).Nodup) ∧
    ((t.map Prod.snd).Nodup → (t'.map Prod.snd).Nodup) := by
  unfold assign_unique_identifiers at h
  cases hn : nextIdOf t with
  | error e => rw [hn] at h; cases h
  | ok n =>
    rw [hn] at h
    have h2 : assignLoop cat rs t n = Except.ok (rA, t') := h
    obtain ⟨e, he, hlen, _⟩ := assignLoop_shape cat rs t n rA t' h2
    refine ⟨⟨e, he⟩, ?_, hlen, ?_, ?_, ?_⟩
    · intro k v hv
      rw [he]
      exact lookupT_append_left _ _ _ _ hv
    · intro i hi hi' f k idv hsf hget hlook
      exact assignLoop_attach cat rs t n rA t' h2 i hi hi' f k idv hsf hget hlook
    · exact assignLoop_keysNodup cat rs t n rA t' h2
    · intro hv
      exact assignLoop_valsNodup cat rs t n rA t' h2 hv (fun m hm => nextIdOf_fresh t n hn m hm)

/-- Witness for C3: a batch whose identity value is already mapped leaves
the two-entry table unchanged and re-attaches the stored identifier. -/
theorem assign_identifier_stability_witness :
    assign_unique_identifiers [aliceRow] "Messenger" stabTable =
      Except.ok ([aliceRowTagged], stabTable) ∧
    (∃ e, stabTable = stabTable ++ e) ∧
    lookupT stabTable (Value.str "Bob") = some "ID_002" ∧
    (stabTable.map Prod.fst).Nodup ∧
    (stabTable.map Prod.snd).Nodup ∧
    [aliceRowTagged].get ⟨0, Nat.succ_pos 0⟩ =
      setField ([aliceRow].get ⟨0, Nat.succ_pos 0⟩) "identifier" (Value.str "ID_001") :=
  ⟨rfl,
   (assign_identifier_stability "Messenger" [aliceRow] stabTable [aliceRowTagged] stabTable rfl).1,
   rfl, by decide, by decide,
   (assign_identifier_stability "Messenger" [aliceRow] stabTable [aliceRowTagged] stabTable
     rfl).2.2.2.1 0 (Nat.succ_pos 0) (Nat.succ_pos 0) "Sender" (Value.str "Alice") "ID_001"
     rfl rfl rfl⟩

/-- C4: when assignment succeeds from a table whose `next_id` computed to
`n₀`, the appended entries carry exactly the identifiers
`ID_{n₀:03d}, ID_{n₀+1:03d}, …` in minting order, so numeric suffixes are
strictly increasing within a run; `n₀` is 1 on an empty table and otherwise
one more than the highest numeric suffix in the table (every stored suffix
is below `n₀`, and `n₀ - 1` is attained); and the format widens past 999 —
`formatId` is injective (no truncation, wrapping or collision) and
`formatId 1000 = "ID_1000"`. -/
theorem assign_minting_rule (cat : String) (rs : List Record) (t : IdTable) (n₀ : Nat)
    (rA : List Record) (t' : IdTable)
    (hn : nextIdOf t = Except.ok n₀)
    (h : assign_unique_identifiers rs cat t = Except.ok (rA, t')) :
    (∃ e, t' = t ++ e ∧
      ∀ j (hj : j < e.length), (e.get ⟨j, hj⟩).2 = formatId (n₀ + j) ∧
        idNum ((e.get ⟨j, hj⟩).2) = some (n₀ + j)) ∧
    (t = [] → n₀ = 1) ∧
    (∀ v ∈ t.map Prod.snd, ∃ k, idNum v = some k ∧ k < n₀) ∧
    (t ≠ [] → ∃ v ∈ t.map Prod.snd, idNum v = some (n₀ - 1)) ∧
    (∀ a b, formatId a = formatId b → a = b) ∧
    formatId 1000 = "ID_1000" := by
  have h2 : assignLoop cat rs t n₀ = Except.ok (rA, t') := by
    unfold assign_unique_identifiers at h
    rw [hn] at h
    exact h
  obtain ⟨e, he, _, hj⟩ := assignLoop_shape cat rs t n₀ rA t' h2
  refine ⟨⟨e, he, ?_⟩, ?_, nextIdOf_bound t n₀ hn,
    fun hne => nextIdOf_max_attained t n₀ hne hn, formatId_injective, rfl⟩
  · intro j hj'
    refine ⟨hj j hj', ?_⟩
    rw [hj j hj']
    exact idNum_formatId _
  · intro ht
    subst ht
    exact (Except.ok.inj hn).symm

/-- Witness for C4: from a table holding `ID_999`, two fresh identity
values mint `ID_1000` and `ID_1001` — the format widens instead of
wrapping. -/
theorem assign_minting_rule_witness :
    nextIdOf prevTable = Except.ok 1000 ∧
    ((∃ e, prevTable ++ [(Value.str "Alice", formatId 1000), (Value.str "Bob", formatId 1001)] =
        prevTable ++ e ∧
      ∀ j (hj : j < e.length), (e.get ⟨j, hj⟩).2 = formatId (1000 + j) ∧
        idNum ((e.get ⟨j, hj⟩).2) = some (1000 + j)) ∧
     (prevTable = [] → 1000 = 1) ∧
     (∀ v ∈ prevTable.map Prod.snd, ∃ k, idNum v = some k ∧ k < 1000) ∧
     (prevTable ≠ [] → ∃ v ∈ prevTable.map Prod.snd, idNum v = some (1000 - 1)) ∧
     (∀ a b, formatId a = formatId b → a = b) ∧
     formatId 1000 = "ID_1000") :=
  ⟨rfl, assign_minting_rule "Messenger" [aliceRow, bobRow] prevTable 1000
    [setField aliceRow "identifier" (Value.str (formatId 1000)),
     setField bobRow "identifier" (Value.str (formatId 1001))]
    (prevTable ++ [(Value.str "Alice", formatId 1000), (Value.str "Bob", formatId 1001)])
    rfl rfl⟩

/-- C2 counterexample: the duplicate filter does not consult prior
persisted records.  Starting from a store already holding a Messenger
record, ingesting a distinct record with the same dedup-key tuple
succeeds, and the resulting persisted sequence holds two records sharing
one key tuple — refuting the claimed combined postcondition. -/
theorem survivor_shares_key_with_persisted_cex :
    processRun dateutilParse store1 msgCols [extraRow] =
      Except.ok ⟨[("Messenger", [aliceRowTagged, extraRowTagged])],
        [(Value.str "Alice", "ID_001")]⟩ ∧
    recordKey ["Time", "Sender", "Text"] aliceRowTagged =
      recordKey ["Time", "Sender", "Text"] extraRowTagged ∧
    aliceRowTagged ≠ extraRowTagged :=
  ⟨rfl, rfl, by decide⟩

/-- C2 amended: within a batch, no two records surviving
`prevent_duplicate_entries` share a dedup-key tuple; the output is a
subsequence of the input (records kept in input order); and for every key
tuple the survivors with that tuple are exactly the first input record
bearing it — prior persisted records are not consulted (the seen set
starts empty). -/
theorem duplicate_filter_within_batch (rs : List Record) (cat : String) (out : List Record)
    (h : prevent_duplicate_entries rs cat = Except.ok out) :
    ∃ fields, lookupStr dedupFieldsList cat = some fields ∧
      out.Sublist rs ∧
      List.Pairwise (fun a b => recordKey fields a ≠ recordKey fields b) out ∧
      ∀ key : List Value, keyFilter fields key out = (keyFilter fields key rs).take 1 := by
  unfold prevent_duplicate_entries at h
  cases hf : lookupStr dedupFieldsList cat with
  | none => rw [hf] at h; cases h
  | some fields =>
    rw [hf] at h
    have h2 : preventLoop fields [] rs = Except.ok out := h
    refine ⟨fields, rfl, preventLoop_sublist fields rs [] out h2,
      (preventLoop_keys fields rs [] out h2).2, ?_⟩
    intro key
    exact (preventLoop_firstkey fields rs [] out h2 key).2 (List.not_mem_nil key)

/-- Witness for C2: of two equal Alice rows and one Bob row, the first
Alice row and the Bob row survive. -/
theorem duplicate_filter_within_batch_witness :
    prevent_duplicate_entries [aliceRow, aliceRow, bobRow] "Messenger" =
      Except.ok [aliceRow, bobRow] ∧
    ∃ fields, lookupStr dedupFieldsList "Messenger" = some fields ∧
      List.Sublist [aliceRow, bobRow] [aliceRow, aliceRow, bobRow] ∧
      List.Pairwise (fun a b => recordKey fields a ≠ recordKey fields b) [aliceRow, bobRow] ∧
      ∀ key : List Value, keyFilter fields key [aliceRow, bobRow] =
        (keyFilter fields key [aliceRow, aliceRow, bobRow]).take 1 :=
  ⟨rfl, duplicate_filter_within_batch [aliceRow, aliceRow, bobRow] "Messenger"
    [aliceRow, bobRow] rfl⟩

/-- C7 counterexample: two distinct records lacking the required `Sender`
column abort the run with the identical error — a key-lookup error naming
only the missing field.  No error of a dedicated missing-field kind
carrying the offending record exists, so the surfaced error does not
identify the offending record, refuting that part of the claim. -/
theorem missing_field_same_error_cex :
    processRun dateutilParse emptyStore msgCols [[("Time", canonTime)]] =
      Except.error (PyErr.keyError "Sender") ∧
    processRun dateutilParse emptyStore msgCols [[("Time", canonTime), ("Text", Value.str "x")]] =
      Except.error (PyErr.keyError "Sender") ∧
    ([("Time", canonTime)] : Record) ≠ [("Time", canonTime), ("Text", Value.str "x")] :=
  ⟨rfl, rfl, by decide⟩

/-- C7 amended: a record lacking the column required by its category's
identity field makes the run terminate with a key-lookup error naming that
field and nothing is saved (the record is not silently dropped, no merge
occurs); a record lacking a dedup-key column makes the duplicate filter
raise a key-lookup error naming one of the dedup fields. -/
theorem missing_required_field_aborts_run :
    (∀ (parse : Value → Except PyErr String) (saveOk : Bool) (disk : Store)
       (cols : List String) (rows : List Record) (cat f : String) (rowsN : List Record)
       (n : Nat),
      detect_data_category cols = some cat →
      normalizeRows parse rows = Except.ok rowsN →
      senderField cat = some f →
      nextIdOf disk.identifiers = Except.ok n →
      (∃ r ∈ rowsN, getField r f = Option.none) →
      processRun parse disk cols rows = Except.error (PyErr.keyError f) ∧
        runAndSave parse saveOk disk cols rows = (disk, some (PyErr.keyError f))) ∧
    (∀ (rs : List Record) (cat : String) (fields : List String),
      lookupStr dedupFieldsList cat = some fields →
      (∃ r ∈ rs, ∃ f ∈ fields, getField r f = Option.none) →
      ∃ f' ∈ fields, prevent_duplicate_entries rs cat = Except.error (PyErr.keyError f')) := by
  constructor
  · intro parse saveOk disk cols rows cat f rowsN n hdet hnorm hsf hn hex
    have hass : assign_unique_identifiers rowsN cat disk.identifiers =
        Except.error (PyErr.keyError f) := by
      unfold assign_unique_identifiers
      rw [hn]
      exact assignLoop_missing cat f hsf rowsN hex disk.identifiers n
    have hrun : processRun parse disk cols rows = Except.error (PyErr.keyError f) := by
      unfold processRun
      simp only [hdet, hnorm, hass]
    refine ⟨hrun, ?_⟩
    unfold runAndSave
    rw [hrun]
  · intro rs cat fields hf hex
    rcases preventLoop_missing fields rs [] hex with ⟨f', hf', herr⟩
    refine ⟨f', hf', ?_⟩
    unfold prevent_duplicate_entries
    rw [hf]
    exact herr

/-- Witness for C7: a Messenger row without `Sender` aborts the run and
leaves the store; the same row makes the duplicate filter raise a
key-lookup error on a dedup field. -/
theorem missing_required_field_aborts_run_witness :
    (processRun dateutilParse emptyStore msgCols [[("Time", canonTime)]] =
      Except.error (PyErr.keyError "Sender") ∧
     runAndSave dateutilParse true emptyStore msgCols [[("Time", canonTime)]] =
      (emptyStore, some (PyErr.keyError "Sender"))) ∧
    (∃ f' ∈ ["Time", "Sender", "Text"],
      prevent_duplicate_entries [[("Time", canonTime)]] "Messenger" =
        Except.error (PyErr.keyError f')) :=
  ⟨missing_required_field_aborts_run.1 dateutilParse true emptyStore msgCols
    [[("Time", canonTime)]] "Messenger" "Sender" [[("Time", canonTime)]] 1
    rfl rfl rfl rfl ⟨[("Time", canonTime)], List.mem_cons_self _ _, rfl⟩,
   missing_required_field_aborts_run.2 [[("Time", canonTime)]] "Messenger"
    ["Time", "Sender", "Text"] rfl
    ⟨[("Time", canonTime)], List.mem_cons_self _ _, "Sender", by decide, rfl⟩⟩

/-- C10: each of the fields Time, Last Contacted and Installed Date, when
present, is replaced by the parsed canonical string, or by the null marker
when parsing raises ValueError; only ValueError is handled, so any other
exception — e.g. the TypeError `dateutil.parser.parse` raises on a
non-string cell such as a NaN read from a missing CSV cell — propagates
and aborts the entire run with the store untouched, instead of the field
being set to the null marker. -/
theorem timestamp_normalization_edge :
    (∀ (parse : Value → Except PyErr String) (f : String) (r : Record),
      (getField r f = Option.none → stdField parse f r = Except.ok r) ∧
      (∀ v s, getField r f = some v → parse v = Except.ok s →
        stdField parse f r = Except.ok (setField r f (Value.str s))) ∧
      (∀ v, getField r f = some v → parse v = Except.error PyErr.valueError →
        stdField parse f r = Except.ok (setField r f Value.none)) ∧
      (∀ v e, getField r f = some v → parse v = Except.error e → e ≠ PyErr.valueError →
        stdField parse f r = Except.error e)) ∧
    (normalizeRows dateutilParse [nanRow] = Except.error PyErr.typeError ∧
     processRun dateutilParse emptyStore msgCols [nanRow] = Except.error PyErr.typeError ∧
     runAndSave dateutilParse true emptyStore msgCols [nanRow] =
       (emptyStore, some PyErr.typeError)) := by
  constructor
  · intro parse f r
    refine ⟨?_, ?_, ?_, ?_⟩
    · intro hg
      unfold stdField
      rw [hg]
    · intro v s hg hp
      unfold stdField
      simp only [hg]
      rw [hp]
    · intro v hg hp
      unfold stdField
      simp only [hg]
      rw [hp]
    · intro v e hg hp hne
      unfold stdField
      simp only [hg]
      rw [hp]
      cases e with
      | valueError => exact absurd rfl hne
      | keyError s => rfl
      | typeError => rfl
      | unrecognizedCategory => rfl
      | persistenceError => rfl
  · exact ⟨rfl, rfl, rfl⟩

/-- Witness for C10: an unparseable string is nulled, a canonical string is
kept, and a NaN Time cell aborts normalization. -/
theorem timestamp_normalization_edge_witness :
    stdField dateutilParse "Last Contacted" [("Last Contacted", Value.str "garbage")] =
      Except.ok [("Last Contacted", Value.none)] ∧
    stdField dateutilParse "Time" aliceRow = Except.ok aliceRow ∧
    normalizeRows dateutilParse [nanRow] = Except.error PyErr.typeError :=
  ⟨(timestamp_normalization_edge.1 dateutilParse "Last Contacted"
      [("Last Contacted", Value.str "garbage")]).2.2.1 (Value.str "garbage") rfl rfl,
   (timestamp_normalization_edge.1 dateutilParse "Time" aliceRow).2.1
      canonTime "2024-01-02T03:04:05" rfl rfl,
   timestamp_normalization_edge.2.1⟩

/-- C1 counterexample: ingesting the same one-record Messenger table twice
into the empty store merges the record again — the second run merges one
new record, not zero, because the duplicate filter never consults the
persisted store. -/
theorem ingest_twice_adds_records_cex :
    processRun dateutilParse emptyStore msgCols [aliceRow] = Except.ok store1 ∧
    processRun dateutilParse store1 msgCols [aliceRow] = Except.ok store2 ∧
    (lookupCats store1.cats "Messenger").map List.length = some 1 ∧
    (lookupCats store2.cats "Messenger").map List.length = some 2 :=
  ⟨rfl, rfl, rfl, rfl⟩

/-- C1 amended: re-ingesting an unchanged input table a second time merges
the same filtered records again, not zero records: the duplicate filter
starts from an empty seen set and never consults the persisted store, so
the second successful run appends exactly the batch records appended by
the first run, while the identifier table stays unchanged. -/
theorem second_run_appends_same_records (parse : Value → Except PyErr String)
    (store : Store) (cols : List String) (rows : List Record) (s₁ s₂ : Store)
    (h₁ : processRun parse store cols rows = Except.ok s₁)
    (h₂ : processRun parse s₁ cols rows = Except.ok s₂) :
    ∃ cat es, detect_data_category cols = some cat ∧
      s₁.cats = mergeCategory store.cats cat es ∧
      s₂.cats = mergeCategory s₁.cats cat es ∧
      s₂.identifiers = s₁.identifiers := by
  rcases processRun_inv parse store cols rows s₁ h₁ with
    ⟨cat, rowsN, rowsA, t', es, hdet, hnorm, hass, hprev, hs₁⟩
  subst hs₁
  have hstable := assign_stable cat rowsN store.identifiers rowsA t' hass
  have hrun2 : processRun parse ⟨mergeCategory store.cats cat es, t'⟩ cols rows =
      Except.ok ⟨mergeCategory (mergeCategory store.cats cat es) cat es, t'⟩ :=
    processRun_mk parse ⟨mergeCategory store.cats cat es, t'⟩ cols rows cat rowsN rowsA t' es
      hdet hnorm hstable hprev
  rw [h₂] at hrun2
  have hs₂ : s₂ = ⟨mergeCategory (mergeCategory store.cats cat es) cat es, t'⟩ :=
    Except.ok.inj hrun2
  subst hs₂
  exact ⟨cat, es, hdet, rfl, rfl, rfl⟩

/-- Witness for C1: the double ingestion of `[aliceRow]` appends the same
single filtered record in both runs. -/
theorem second_run_appends_same_records_witness :
    processRun dateutilParse emptyStore msgCols [aliceRow] = Except.ok store1 ∧
    processRun dateutilParse store1 msgCols [aliceRow] = Except.ok store2 ∧
    ∃ cat es, detect_data_category msgCols = some cat ∧
      store1.cats = mergeCategory emptyStore.cats cat es ∧
      store2.cats = mergeCategory store1.cats cat es ∧
      store2.identifiers = store1.identifiers :=
  ⟨rfl, rfl, second_run_appends_same_records dateutilParse emptyStore msgCols [aliceRow]
    store1 store2 rfl rfl⟩
